import Mathlib

/-!
Shallow embedding of `array-vec` (`src/lib.rs`): a fixed-capacity vector
`ArrayVec<T, A>` backed by an inline fixed-size array `A = [T; N]`, with a
partial-initialization discipline (`idx` counts the live prefix).

Modelling choices:

* A storage slot is either uninitialized garbage (`Slot.uninit`) or holds a
  live value (`Slot.live x`).  `mem::uninitialized()` produces `Slot.uninit`;
  `mem::swap`/`mem::forget` pairs are modelled by `List.set` (the moved-out
  garbage is forgotten, never destructed).
* The struct field `array : Option<A>` is modelled directly as
  `Option (List (Slot T))`; `none` is the placeholder substituted during
  `Drop`.  The `unreachable!()` branches of `base_ptr`/`base_ptr_mut` are the
  `none` results of the corresponding model functions.
* A Rust panic is modelled as the `none` of an outer `Option` on each
  operation that can panic.
* `mem::size_of::<T>()` is an explicit parameter `sizeT`; for `A = [T; N]`,
  `mem::size_of::<A>() = N * sizeT` (Rust arrays have no padding).  Rust
  integer division by zero panics, so the model of `capacity` returns `none`
  when `sizeT = 0` (the zero-sized-`T` case).
* `usize` arithmetic is `Nat`: `idx` never exceeds the capacity in any state
  the code produces, so no wrap-around is reachable, and `self.idx <= 0` is
  `idx = 0`.
-/

/-- One storage slot of the backing array: either uninitialized memory
(arbitrary leftover bits that must never be interpreted as a `T`) or a live,
fully constructed value. -/
inductive Slot (T : Type) where
  | uninit : Slot T
  | live : T → Slot T
deriving DecidableEq

/-- `pub struct ArrayVec<T, A: FixedSizeArray<T>> { array: Option<A>, idx: usize, phantom }`
with `A = [T; N]`.  The `phantom` field carries no data and is omitted. -/
structure ArrayVec (T : Type) (N : Nat) where
  array : Option (List (Slot T))
  idx : Nat
deriving DecidableEq

namespace ArrayVec

variable {T : Type} {N : Nat}

/-- `unsafe fn base_ptr_mut(&mut self) -> *mut T`: yields the storage when
`self.array` is `Some`, and hits `unreachable!()` (modelled `none`) otherwise. -/
def base_ptr_mut (v : ArrayVec T N) : Option (List (Slot T)) :=
  match v.array with
  | some ref_arr => some ref_arr
  | none => none

/-- `unsafe fn base_ptr(&self) -> *const T`: the shared-reference twin of
`base_ptr_mut`. -/
def base_ptr (v : ArrayVec T N) : Option (List (Slot T)) :=
  match v.array with
  | some ref_arr => some ref_arr
  | none => none

/-- `pub fn new() -> Self`: `array = Some(mem::uninitialized())`, `idx = 0`.
All `N` slots start as uninitialized garbage; no element is constructed. -/
def new : ArrayVec T N :=
  { array := some (List.replicate N Slot.uninit), idx := 0 }

/-- `mem::size_of::<A>()` for `A = [T; N]` when `mem::size_of::<T>() = sizeT`. -/
def sizeOfStorage (N sizeT : Nat) : Nat := N * sizeT

/-- `pub fn capacity(&self) -> usize { mem::size_of::<A>() / mem::size_of::<T>() }`.
Rust integer division panics when the divisor is zero, which happens exactly
when `T` is a zero-sized type; the panic is modelled as `none`. -/
def capacity (_v : ArrayVec T N) (sizeT : Nat) : Option Nat :=
  if sizeT = 0 then none else some (sizeOfStorage N sizeT / sizeT)

/-- `pub fn length(&self) -> usize { self.idx }` -/
def length (v : ArrayVec T N) : Nat := v.idx

/-- `pub fn push(&mut self, x: T) -> Result<(), &'static str>`.
Calls `self.capacity()` (which can panic for zero-sized `T`); if `idx` is
below capacity, moves `x` into slot `idx` (`mem::swap` then `mem::forget` of
the displaced garbage) and increments `idx`; otherwise returns `Err` and
leaves the state untouched.  Result: `none` = panic, otherwise the
`Result` value paired with the post-state. -/
def push (v : ArrayVec T N) (x : T) (sizeT : Nat) :
    Option (Except String Unit × ArrayVec T N) :=
  match v.capacity sizeT with
  | none => none
  | some cap =>
    if v.idx < cap then
      match v.base_ptr_mut with
      | none => none
      | some slots =>
        some (Except.ok (),
          { v with array := some (slots.set v.idx (Slot.live x)),
                   idx := v.idx + 1 })
    else
      some (Except.error "cannot push: this ArrayVec is full", v)

/-- `pub fn pop(&mut self) -> Option<T>`.
If `idx <= 0` (i.e. `idx = 0` for `usize`) returns `None` without touching
the storage; otherwise swaps slot `idx - 1` with a fresh uninitialized cell,
decrements `idx`, and returns the cell.  The returned cell carries whatever
the slot held — `Slot.live x` in any well-formed state.  Outer `none` =
the `unreachable!()` panic inside `base_ptr_mut`. -/
def pop (v : ArrayVec T N) : Option (Option (Slot T) × ArrayVec T N) :=
  if v.idx = 0 then
    some (none, v)
  else
    match v.base_ptr_mut with
    | none => none
    | some slots =>
      let cell := slots.getD (v.idx - 1) Slot.uninit
      some (some cell,
        { v with array := some (slots.set (v.idx - 1) Slot.uninit),
                 idx := v.idx - 1 })

/-- `impl Deref`: `slice::from_raw_parts(self.base_ptr(), self.length())` —
the first `length` slots of the storage, as a read-only slice. -/
def deref (v : ArrayVec T N) : Option (List (Slot T)) :=
  match v.base_ptr with
  | none => none
  | some slots => some (slots.take v.length)

/-- `impl DerefMut`: `slice::from_raw_parts_mut(self.base_ptr_mut(), self.length())`. -/
def deref_mut (v : ArrayVec T N) : Option (List (Slot T)) :=
  match v.base_ptr_mut with
  | none => none
  | some slots => some (slots.take v.length)

/-- `impl Index<usize>`: `&(**self)[index]` — index into the `Deref` slice;
out-of-bounds indexing of a slice is a panic (`none`). -/
def index (v : ArrayVec T N) (i : Nat) : Option (Slot T) :=
  match v.deref with
  | none => none
  | some s => s.get? i

/-- The `while self.length() > 0 { self.pop(); }` loop of `impl Drop`,
returning the sequence of cells handed to destruction, in destruction order,
next to the post-loop state.  Each popped cell goes out of scope at the end
of the loop body, so its destructor runs there.  The loop is driven by a
fuel argument; `idx` strictly decreases at every successful iteration, so
fuel `v.idx` runs the loop to completion. -/
def dropLoop : Nat → ArrayVec T N → Option (List (Slot T) × ArrayVec T N)
  | 0, v => some ([], v)
  | fuel + 1, v =>
    if v.length = 0 then
      some ([], v)
    else
      match v.pop with
      | none => none
      | some (cell, v') =>
        match dropLoop fuel v' with
        | none => none
        | some (rest, vfin) => some (cell.elim [] (fun c => [c]) ++ rest, vfin)

/-- `impl Drop for ArrayVec`: pop every live element (running its destructor),
then swap `self.array` with `None` and `mem::forget` the extracted storage so
that the array's own aggregate destructor never runs over the (now entirely
garbage) slots.  Returns the destruction sequence and the final state;
`none` = a panic inside the loop. -/
def dropVec (v : ArrayVec T N) : Option (List (Slot T) × ArrayVec T N) :=
  match dropLoop v.idx v with
  | none => none
  | some (destructed, v') =>
    some (destructed, { v' with array := none })

/-- `impl FromIterator` loop body over an eager list of the iterator's items:
`for element in iterable { result.push(element).unwrap(); }`.
`unwrap()` on the `Err` returned by a full `push` is a panic (`none`), as is
any panic inside `push` itself. -/
def fromIterLoop (sizeT : Nat) : List T → ArrayVec T N → Option (ArrayVec T N)
  | [], result => some result
  | element :: rest, result =>
    match result.push element sizeT with
    | none => none
    | some (Except.ok _, result') => fromIterLoop sizeT rest result'
    | some (Except.error _, _) => none

/-- `fn from_iter<I: IntoIterator<Item=T>>(iterable: I) -> ArrayVec<T, A>`:
start from `ArrayVec::new()` and push every produced element in order. -/
def from_iter (sizeT : Nat) (l : List T) : Option (ArrayVec T N) :=
  fromIterLoop sizeT l new

/-- Well-formedness: the states the container actually inhabits.  `xs` is the
live prefix in insertion order (least-recently-pushed first): the storage is
`Some` array of exactly `N` slots whose first `xs.length` slots hold the live
values in order and whose remaining slots are uninitialized, and `idx` is the
length of the live prefix. -/
def Wf (v : ArrayVec T N) (xs : List T) : Prop :=
  ∃ k, xs.length + k = N ∧
    v.array = some (xs.map Slot.live ++ List.replicate k Slot.uninit) ∧
    v.idx = xs.length

end ArrayVec

/-- The states reachable through the public operations, starting from
`ArrayVec::new()`.  `push` and `pop` are the two mutating methods; `write`
covers mutation of a live element through the `&mut [T]` slice returned by
`DerefMut` (indexing, `Deref`, and `Debug::fmt` take shared references and
produce no new state).  Teardown (`Drop`) is excluded: it is the one place
where `array` is deliberately replaced by `None`, after which the container
no longer exists. -/
inductive Reachable (T : Type) (N sizeT : Nat) : ArrayVec T N → Prop where
  | new : Reachable T N sizeT ArrayVec.new
  | push (v : ArrayVec T N) (x : T) (r : Except String Unit) (v' : ArrayVec T N) :
      Reachable T N sizeT v → v.push x sizeT = some (r, v') → Reachable T N sizeT v'
  | pop (v : ArrayVec T N) (r : Option (Slot T)) (v' : ArrayVec T N) :
      Reachable T N sizeT v → v.pop = some (r, v') → Reachable T N sizeT v'
  | write (v : ArrayVec T N) (slots : List (Slot T)) (i : Nat) (y : T) :
      Reachable T N sizeT v → v.array = some slots → i < v.length →
      Reachable T N sizeT { v with array := some (slots.set i (Slot.live y)) }

namespace ArrayVec

variable {T : Type} {N : Nat}

/-! ### List bookkeeping lemmas -/

/-- Reading the storage at the index right after a block `pre` yields the cell
that follows `pre`. -/
theorem getD_after (pre : List (Slot T)) (c : Slot T) (rest : List (Slot T)) :
    (pre ++ c :: rest).getD pre.length Slot.uninit = c := by
  induction pre with
  | nil => rfl
  | cons a l ih => simpa using ih

/-- Writing the storage at the index right after a block `pre` replaces the
cell that follows `pre`. -/
theorem set_after (pre : List (Slot T)) (c d : Slot T) (rest : List (Slot T)) :
    (pre ++ c :: rest).set pre.length d = pre ++ d :: rest := by
  induction pre with
  | nil => rfl
  | cons a l ih => simp [ih]

/-- Taking exactly the length of a leading block `pre` yields `pre`. -/
theorem take_front (pre rest : List (Slot T)) : (pre ++ rest).take pre.length = pre := by
  induction pre with
  | nil => rfl
  | cons a l ih => simp [ih]

theorem get?_map_live (xs : List T) (i : Nat) :
    (xs.map Slot.live).get? i = (xs.get? i).map Slot.live := by
  induction xs generalizing i with
  | nil => rfl
  | cons a l ih => cases i <;> simp [ih]

/-! ### Operation lemmas on well-formed states -/

theorem wf_length_le {v : ArrayVec T N} {xs : List T} (hw : v.Wf xs) : xs.length ≤ N := by
  obtain ⟨k, hk, -, -⟩ := hw
  omega

theorem wf_idx {v : ArrayVec T N} {xs : List T} (hw : v.Wf xs) : v.idx = xs.length := by
  obtain ⟨k, -, -, hi⟩ := hw
  exact hi

theorem wf_new : (new : ArrayVec T N).Wf [] :=
  ⟨N, by simp, by simp [new], rfl⟩

/-- `capacity` never panics for an element type of nonzero size, and returns
exactly `N` there. -/
theorem capacity_spec (v : ArrayVec T N) (sizeT : Nat) (hs : sizeT ≠ 0) :
    v.capacity sizeT = some N := by
  simp [capacity, sizeOfStorage, hs, Nat.mul_div_cancel _ (Nat.pos_of_ne_zero hs)]

/-- `capacity` panics (division by zero) exactly for zero-sized element types. -/
theorem capacity_zst (v : ArrayVec T N) : v.capacity 0 = none := by
  simp [capacity]

/-- `push` for a zero-sized element type panics inside `capacity`. -/
theorem push_zst (v : ArrayVec T N) (x : T) : v.push x 0 = none := by
  simp [push, capacity]

/-- Computation rule for a successful `push`. -/
theorem push_eq {v : ArrayVec T N} {slots : List (Slot T)} {sizeT : Nat}
    (ha : v.array = some slots) (hs : sizeT ≠ 0) (hlt : v.idx < N) (x : T) :
    v.push x sizeT = some (Except.ok (),
      { v with array := some (slots.set v.idx (Slot.live x)), idx := v.idx + 1 }) := by
  unfold push base_ptr_mut
  rw [capacity_spec _ _ hs, ha]
  simp [hlt]

/-- Computation rule for `push` on a full container. -/
theorem push_full_eq {v : ArrayVec T N} {sizeT : Nat}
    (hs : sizeT ≠ 0) (hge : ¬ v.idx < N) (x : T) :
    v.push x sizeT = some (Except.error "cannot push: this ArrayVec is full", v) := by
  unfold push
  rw [capacity_spec _ _ hs]
  simp [hge]

/-- Computation rule for `pop` on a nonempty container. -/
theorem pop_eq {v : ArrayVec T N} {slots : List (Slot T)}
    (ha : v.array = some slots) (hne : v.idx ≠ 0) :
    v.pop = some (some (slots.getD (v.idx - 1) Slot.uninit),
      { v with array := some (slots.set (v.idx - 1) Slot.uninit), idx := v.idx - 1 }) := by
  unfold pop base_ptr_mut
  rw [ha]
  simp [hne]

/-- `pop` on an empty container returns `None` and does not touch the state
(it returns before `base_ptr_mut` is ever called). -/
theorem pop_empty (v : ArrayVec T N) (h : v.idx = 0) : v.pop = some (none, v) := by
  simp [pop, h]

/-- A successful `push` below capacity: the new element becomes the last live
slot, the length grows by one, and an immediately following `pop` hands the
element back and restores exactly the prior state. -/
theorem wf_push_ok {v : ArrayVec T N} {xs : List T} (x : T) {sizeT : Nat}
    (hw : v.Wf xs) (hs : sizeT ≠ 0) (hlt : xs.length < N) :
    ∃ v', v.push x sizeT = some (Except.ok (), v') ∧ v'.Wf (xs ++ [x]) ∧
      v'.idx = v.idx + 1 ∧ v'.pop = some (some (Slot.live x), v) := by
  obtain ⟨k, hk, ha, hi⟩ := hw
  obtain ⟨a, i⟩ := v
  replace ha : a = some (xs.map Slot.live ++ List.replicate k Slot.uninit) := ha
  replace hi : i = xs.length := hi
  subst ha hi
  cases k with
  | zero => omega
  | succ k' =>
    have hshape : xs.map Slot.live ++ List.replicate (k' + 1) Slot.uninit
        = xs.map Slot.live ++ Slot.uninit :: List.replicate k' Slot.uninit := by
      simp [List.replicate_succ]
    have hset : (xs.map Slot.live ++ List.replicate (k' + 1) Slot.uninit).set
        xs.length (Slot.live x)
        = (xs ++ [x]).map Slot.live ++ List.replicate k' Slot.uninit := by
      rw [hshape, ← List.length_map xs Slot.live, set_after]
      simp
    have hpush := push_eq (v := (ArrayVec.mk
        (some (xs.map Slot.live ++ List.replicate (k' + 1) Slot.uninit)) xs.length : ArrayVec T N))
      rfl hs (by simpa using hlt) x
    refine ⟨_, hpush, ?_, rfl, ?_⟩
    · exact ⟨k', by simp; omega, by simp [hset], by simp⟩
    · have hpop := pop_eq (v := (ArrayVec.mk
          (some ((xs.map Slot.live ++ List.replicate (k' + 1) Slot.uninit).set
            xs.length (Slot.live x))) (xs.length + 1) : ArrayVec T N))
        rfl (by simp)
      have hget : ((xs.map Slot.live ++ List.replicate (k' + 1) Slot.uninit).set
          xs.length (Slot.live x)).getD xs.length Slot.uninit = Slot.live x := by
        rw [hset]
        have : (xs ++ [x]).map Slot.live ++ List.replicate k' Slot.uninit
            = xs.map Slot.live ++ Slot.live x :: List.replicate k' Slot.uninit := by
          simp
        rw [this, ← List.length_map xs Slot.live, getD_after]
      have hunset : ((xs.map Slot.live ++ List.replicate (k' + 1) Slot.uninit).set
          xs.length (Slot.live x)).set xs.length Slot.uninit
          = xs.map Slot.live ++ List.replicate (k' + 1) Slot.uninit := by
        rw [hset]
        have : (xs ++ [x]).map Slot.live ++ List.replicate k' Slot.uninit
            = xs.map Slot.live ++ Slot.live x :: List.replicate k' Slot.uninit := by
          simp
        rw [this, ← List.length_map xs Slot.live, set_after, hshape]
      rw [hpop]
      dsimp only
      simp only [Nat.add_sub_cancel]
      rw [hget, hunset]

/-- `push` on a full well-formed container: the `Err` result is returned and
the state — length and every slot — is literally unchanged. -/
theorem wf_push_full {v : ArrayVec T N} {xs : List T} (x : T) {sizeT : Nat}
    (hw : v.Wf xs) (hs : sizeT ≠ 0) (hfull : xs.length = N) :
    v.push x sizeT = some (Except.error "cannot push: this ArrayVec is full", v) :=
  push_full_eq hs (by rw [wf_idx hw]; omega) x

/-- `pop` on a well-formed container whose last-pushed element is `y`: the
cell handed back is exactly `Slot.live y`, the vacated slot reverts to
uninitialized, and the remaining state is well formed on the shorter list. -/
theorem wf_pop_last {v : ArrayVec T N} {xs : List T} {y : T} (hw : v.Wf (xs ++ [y])) :
    ∃ v', v.pop = some (some (Slot.live y), v') ∧ v'.Wf xs ∧ v'.idx = v.idx - 1 := by
  obtain ⟨k, hk, ha, hi⟩ := hw
  obtain ⟨a, i⟩ := v
  replace ha : a = some ((xs ++ [y]).map Slot.live ++ List.replicate k Slot.uninit) := ha
  replace hi : i = (xs ++ [y]).length := hi
  subst ha hi
  have hshape : (xs ++ [y]).map Slot.live ++ List.replicate k Slot.uninit
      = xs.map Slot.live ++ Slot.live y :: List.replicate k Slot.uninit := by
    simp
  have hpop := pop_eq (v := (ArrayVec.mk
      (some ((xs ++ [y]).map Slot.live ++ List.replicate k Slot.uninit))
      (xs ++ [y]).length : ArrayVec T N)) rfl (by simp)
  have hlen : (xs ++ [y]).length - 1 = xs.length := by simp
  have hget : ((xs ++ [y]).map Slot.live ++ List.replicate k Slot.uninit).getD
      xs.length Slot.uninit = Slot.live y := by
    rw [hshape, ← List.length_map xs Slot.live, getD_after]
  have hsetres : ((xs ++ [y]).map Slot.live ++ List.replicate k Slot.uninit).set
      xs.length Slot.uninit
      = xs.map Slot.live ++ List.replicate (k + 1) Slot.uninit := by
    rw [hshape, ← List.length_map xs Slot.live, set_after]
    simp [List.replicate_succ]
  refine ⟨ArrayVec.mk (some (xs.map Slot.live ++ List.replicate (k + 1) Slot.uninit))
    xs.length, ?_, ?_, ?_⟩
  · rw [hpop]
    dsimp only
    rw [hlen, hget, hsetres]
  · exact ⟨k + 1, by simp at hk ⊢; omega, rfl, rfl⟩
  · simp

/-- The `Deref` view of a well-formed container is exactly the live elements,
in insertion order. -/
theorem wf_deref {v : ArrayVec T N} {xs : List T} (hw : v.Wf xs) :
    v.deref = some (xs.map Slot.live) := by
  obtain ⟨k, hk, ha, hi⟩ := hw
  unfold deref base_ptr
  rw [ha]
  simp only [length, hi, ← List.length_map xs Slot.live, take_front]

/-- The `DerefMut` view agrees with the `Deref` view. -/
theorem wf_deref_mut {v : ArrayVec T N} {xs : List T} (hw : v.Wf xs) :
    v.deref_mut = some (xs.map Slot.live) := by
  obtain ⟨k, hk, ha, hi⟩ := hw
  unfold deref_mut base_ptr_mut
  rw [ha]
  simp only [length, hi, ← List.length_map xs Slot.live, take_front]

/-- Indexing a well-formed container is indexing the live list: a live value
below `length`, a bounds panic (`none`) at or above it. -/
theorem wf_index {v : ArrayVec T N} {xs : List T} (hw : v.Wf xs) (i : Nat) :
    v.index i = (xs.get? i).map Slot.live := by
  unfold index
  rw [wf_deref hw]
  dsimp only
  exact get?_map_live xs i

/-- Correctness of the `Drop` pop-loop on a well-formed state: with fuel equal
to the live count it destructs exactly the live values, last-pushed first, and
leaves every one of the `N` slots uninitialized with `length = 0`. -/
theorem wf_dropLoop (xs : List T) : ∀ (v : ArrayVec T N), v.Wf xs →
    dropLoop xs.length v
      = some (xs.reverse.map Slot.live,
          ArrayVec.mk (some (List.replicate N Slot.uninit)) 0) := by
  induction xs using List.reverseRecOn with
  | nil =>
    intro v hw
    obtain ⟨k, hk, ha, hi⟩ := hw
    obtain ⟨a, i⟩ := v
    replace ha : a = some (List.replicate k Slot.uninit) := by simpa using ha
    replace hi : i = 0 := hi
    subst ha hi
    have hkN : k = N := by simpa using hk
    subst hkN
    rfl
  | append_singleton ys y ih =>
    intro v hw
    obtain ⟨v', hpop, hw', hidx⟩ := wf_pop_last hw
    have hlen : (ys ++ [y]).length = ys.length + 1 := by simp
    rw [hlen, dropLoop]
    have hne : ¬ v.length = 0 := by
      rw [length, wf_idx hw]
      simp
    rw [if_neg hne, hpop]
    dsimp only
    rw [ih v' hw']
    simp

/-- Teardown of a well-formed container: the destructor sequence is exactly
the live values in reverse insertion order — each live value once, never an
uninitialized slot — and the final state has no live slot and its storage
replaced by the forgotten `None` placeholder. -/
theorem wf_dropVec {v : ArrayVec T N} {xs : List T} (hw : v.Wf xs) :
    v.dropVec = some (xs.reverse.map Slot.live, ArrayVec.mk none 0) := by
  unfold dropVec
  rw [wf_idx hw, wf_dropLoop xs v hw]

/-- Correctness of the `FromIterator` loop, generalized over the accumulator:
when the remaining elements fit, they are all pushed in order; when they
overflow the capacity, the loop panics (`unwrap` of an `Err`). -/
theorem wf_fromIterLoop {sizeT : Nat} (hs : sizeT ≠ 0) :
    ∀ (l : List T) (v : ArrayVec T N) (xs : List T), v.Wf xs →
      (xs.length + l.length ≤ N →
        ∃ v', fromIterLoop sizeT l v = some v' ∧ v'.Wf (xs ++ l)) ∧
      (N < xs.length + l.length → fromIterLoop sizeT l v = none) := by
  intro l
  induction l with
  | nil =>
    intro v xs hw
    constructor
    · intro _
      exact ⟨v, rfl, by simpa using hw⟩
    · intro hgt
      have := wf_length_le hw
      simp at hgt
      omega
  | cons x rest ih =>
    intro v xs hw
    have hxle := wf_length_le hw
    by_cases hx : xs.length < N
    · obtain ⟨v', hpush, hw', -, -⟩ := wf_push_ok x hw hs hx
      constructor
      · intro hle
        simp at hle
        obtain ⟨v'', h1, h2⟩ := (ih v' (xs ++ [x]) hw').1 (by simp; omega)
        refine ⟨v'', ?_, by simpa using h2⟩
        rw [fromIterLoop, hpush]
        dsimp only
        exact h1
      · intro hgt
        simp at hgt
        rw [fromIterLoop, hpush]
        dsimp only
        exact (ih v' (xs ++ [x]) hw').2 (by simp; omega)
    · have hfull : xs.length = N := by omega
      have hpush := wf_push_full x hw hs hfull
      constructor
      · intro hle
        simp at hle
        omega
      · intro _
        rw [fromIterLoop, hpush]

/-- Any state produced by a non-panicking `push` still holds `Some` storage. -/
theorem push_isSome {v : ArrayVec T N} {x : T} {sizeT : Nat}
    {r : Except String Unit} {v' : ArrayVec T N}
    (hv : v.array.isSome) (h : v.push x sizeT = some (r, v')) :
    v'.array.isSome := by
  by_cases hσ : sizeT = 0
  · subst hσ
    rw [push_zst] at h
    exact absurd h (by simp)
  · obtain ⟨s, hs⟩ := Option.isSome_iff_exists.mp hv
    by_cases hlt : v.idx < N
    · rw [push_eq hs hσ hlt x] at h
      simp only [Option.some.injEq, Prod.mk.injEq] at h
      rw [← h.2]
      rfl
    · rw [push_full_eq hσ hlt x] at h
      simp only [Option.some.injEq, Prod.mk.injEq] at h
      rw [← h.2]
      exact hv

/-- Any state produced by a non-panicking `pop` still holds `Some` storage. -/
theorem pop_isSome {v : ArrayVec T N} {r : Option (Slot T)} {v' : ArrayVec T N}
    (hv : v.array.isSome) (h : v.pop = some (r, v')) :
    v'.array.isSome := by
  by_cases h0 : v.idx = 0
  · rw [pop_empty v h0] at h
    simp only [Option.some.injEq, Prod.mk.injEq] at h
    rw [← h.2]
    exact hv
  · obtain ⟨s, hs⟩ := Option.isSome_iff_exists.mp hv
    rw [pop_eq hs h0] at h
    simp only [Option.some.injEq, Prod.mk.injEq] at h
    rw [← h.2]
    rfl

/-! ### Claims -/

/-- C1: When a well-formed container is destroyed, `Drop` repeatedly applies
the same removal logic as `pop` until `length == 0`, so every live element is
destructed exactly once, in strict reverse-of-insertion (last-pushed-first)
order: the destruction sequence is exactly `xs.reverse`, all of whose entries
are live values — no uninitialized slot (never-live or vacated by `pop`) is
ever destructed, and the forgotten storage (`array := none`) contributes no
further destructor runs. -/
theorem claim_C1_teardown {v : ArrayVec T N} {xs : List T} (hw : v.Wf xs) :
    v.dropVec = some (xs.reverse.map Slot.live, ArrayVec.mk none 0) :=
  wf_dropVec hw

/-- Witness for C1: tearing down a capacity-3 container holding `[1, 2]`
destructs `2` then `1` and touches no third slot. -/
theorem claim_C1_witness :
    (ArrayVec.mk (some [Slot.live 1, Slot.live 2, Slot.uninit]) 2 : ArrayVec Nat 3).Wf
      [1, 2] ∧
    (ArrayVec.mk (some [Slot.live 1, Slot.live 2, Slot.uninit]) 2 : ArrayVec Nat 3).dropVec
      = some ([Slot.live 2, Slot.live 1], ArrayVec.mk none 0) :=
  ⟨⟨1, rfl, rfl, rfl⟩,
   claim_C1_teardown (show (ArrayVec.mk (some [Slot.live 1, Slot.live 2, Slot.uninit]) 2 :
     ArrayVec Nat 3).Wf [1, 2] from ⟨1, rfl, rfl, rfl⟩)⟩

/-- C2: for every value `x` and well-formed container with
`length() < capacity()`, `push x` succeeds, increments `length()` by 1, and
an immediately following `pop()` returns exactly `x` and restores exactly the
prior state (hence the prior `length()`). -/
theorem claim_C2_push_pop_roundtrip {v : ArrayVec T N} {xs : List T} (x : T)
    {sizeT cap : Nat} (hw : v.Wf xs) (hcap : v.capacity sizeT = some cap)
    (hlt : v.length < cap) :
    ∃ v', v.push x sizeT = some (Except.ok (), v') ∧ v'.length = v.length + 1 ∧
      v'.pop = some (some (Slot.live x), v) := by
  have hσ : sizeT ≠ 0 := by
    intro h
    subst h
    rw [capacity_zst] at hcap
    exact absurd hcap (by simp)
  have hN : N = cap := by
    rw [capacity_spec v sizeT hσ] at hcap
    simpa using hcap
  subst hN
  have hi := wf_idx hw
  have hlt' : xs.length < N := by
    simp only [length] at hlt
    omega
  obtain ⟨v', hpush, hw', hidx, hpop⟩ := wf_push_ok x hw hσ hlt'
  exact ⟨v', hpush, by simp [length, hidx], hpop⟩

/-- Witness for C2: pushing `5` onto an empty capacity-2 container and
popping it back. -/
theorem claim_C2_witness :
    ((ArrayVec.new : ArrayVec Nat 2).Wf []) ∧
    ((ArrayVec.new : ArrayVec Nat 2).capacity 1 = some 2) ∧
    ((ArrayVec.new : ArrayVec Nat 2).length < 2) ∧
    (∃ v', (ArrayVec.new : ArrayVec Nat 2).push 5 1 = some (Except.ok (), v') ∧
      v'.length = (ArrayVec.new : ArrayVec Nat 2).length + 1 ∧
      v'.pop = some (some (Slot.live 5), (ArrayVec.new : ArrayVec Nat 2))) :=
  ⟨⟨2, rfl, rfl, rfl⟩, rfl, by decide,
    claim_C2_push_pop_roundtrip 5 (show (ArrayVec.new : ArrayVec Nat 2).Wf [] from
      ⟨2, rfl, rfl, rfl⟩) rfl (by decide)⟩

/-- C3: `push` on a well-formed container with `length() == capacity()` fails
with the Overflow error and returns the state literally unchanged — same
`length`, same storage, every live element keeping its value. -/
theorem claim_C3_push_overflow {v : ArrayVec T N} {xs : List T} (x : T)
    {sizeT cap : Nat} (hw : v.Wf xs) (hcap : v.capacity sizeT = some cap)
    (hfull : v.length = cap) :
    v.push x sizeT = some (Except.error "cannot push: this ArrayVec is full", v) := by
  have hσ : sizeT ≠ 0 := by
    intro h
    subst h
    rw [capacity_zst] at hcap
    exact absurd hcap (by simp)
  have hN : N = cap := by
    rw [capacity_spec v sizeT hσ] at hcap
    simpa using hcap
  subst hN
  have hi := wf_idx hw
  refine wf_push_full x hw hσ ?_
  simp only [length] at hfull
  omega

/-- Witness for C3: a full capacity-1 container rejects `push 13` and is
unchanged. -/
theorem claim_C3_witness :
    ((ArrayVec.mk (some [Slot.live 7]) 1 : ArrayVec Nat 1).Wf [7]) ∧
    ((ArrayVec.mk (some [Slot.live 7]) 1 : ArrayVec Nat 1).capacity 1 = some 1) ∧
    ((ArrayVec.mk (some [Slot.live 7]) 1 : ArrayVec Nat 1).length = 1) ∧
    (ArrayVec.mk (some [Slot.live 7]) 1 : ArrayVec Nat 1).push 13 1
      = some (Except.error "cannot push: this ArrayVec is full",
          ArrayVec.mk (some [Slot.live 7]) 1) :=
  ⟨⟨0, rfl, rfl, rfl⟩, rfl, rfl,
    claim_C3_push_overflow 13 (show (ArrayVec.mk (some [Slot.live 7]) 1 :
      ArrayVec Nat 1).Wf [7] from ⟨0, rfl, rfl, rfl⟩) rfl rfl⟩

/-- C4 counterexample: the claim also asserts that `capacity` (like `create`,
`length`, empty `pop`) "never produces an error and has no failure mode", but
for a zero-sized element type (`size_of::<T>() = 0`) the division
`size_of::<A>() / size_of::<T>()` divides by zero, a runtime panic — the
model returns `none` at element size `0`. -/
theorem claim_C4_counterexample :
    (ArrayVec.new : ArrayVec Unit 3).capacity 0 = none := rfl

/-- C4 (amended): `pop()` on a container with `length() == 0` returns the
empty result (`None`, not an error) and leaves the container literally
unchanged; `pop` on an empty container, `new`, and `length` never produce an
error, and `capacity` never fails for element types of nonzero size
(returning `N`) — only the zero-sized-element division faults. -/
theorem claim_C4_pop_empty_no_error :
    (∀ v : ArrayVec T N, v.length = 0 → v.pop = some (none, v)) ∧
    (∀ (v : ArrayVec T N) (sizeT : Nat), sizeT ≠ 0 → v.capacity sizeT = some N) ∧
    (ArrayVec.new : ArrayVec T N).length = 0 :=
  ⟨fun v h => pop_empty v h, fun v sizeT hs => capacity_spec v sizeT hs, rfl⟩

/-- Witness for C4 at a concrete empty capacity-2 container. -/
theorem claim_C4_witness :
    ((ArrayVec.mk (some [Slot.uninit, Slot.uninit]) 0 : ArrayVec Nat 2).pop
      = some (none, ArrayVec.mk (some [Slot.uninit, Slot.uninit]) 0)) ∧
    ((ArrayVec.new : ArrayVec Nat 2).capacity 1 = some 2) ∧
    ((ArrayVec.new : ArrayVec Nat 2).length = 0) :=
  ⟨(claim_C4_pop_empty_no_error (T := Nat) (N := 2)).1
      (ArrayVec.mk (some [Slot.uninit, Slot.uninit]) 0) rfl,
   (claim_C4_pop_empty_no_error (T := Nat) (N := 2)).2.1 ArrayVec.new 1 (by decide),
   (claim_C4_pop_empty_no_error (T := Nat) (N := 2)).2.2⟩

/-- C5: a freshly created container is well formed on the empty live list
(`length() = 0`, no element constructed, all slots uninitialized), every
non-panicking `push` and `pop` preserves well-formedness — live values always
form a contiguous prefix of slots `[0, length)` starting at index 0 — and
well-formedness bounds `0 ≤ length() ≤ N` (indexing, the views and formatting
borrow the state without changing it, and teardown steps are exactly pops). -/
theorem claim_C5_invariant (sizeT : Nat) :
    ((ArrayVec.new : ArrayVec T N).Wf [] ∧ (ArrayVec.new : ArrayVec T N).length = 0) ∧
    (∀ (v : ArrayVec T N) (xs : List T) (x : T) (r : Except String Unit)
      (v' : ArrayVec T N),
      v.Wf xs → v.push x sizeT = some (r, v') → ∃ ys, v'.Wf ys) ∧
    (∀ (v : ArrayVec T N) (xs : List T) (r : Option (Slot T)) (v' : ArrayVec T N),
      v.Wf xs → v.pop = some (r, v') → ∃ ys, v'.Wf ys) ∧
    (∀ (v : ArrayVec T N) (xs : List T), v.Wf xs → v.length ≤ N) := by
  refine ⟨⟨wf_new, rfl⟩, ?_, ?_, ?_⟩
  · intro v xs x r v' hw hpush
    by_cases hσ : sizeT = 0
    · subst hσ
      rw [push_zst] at hpush
      exact absurd hpush (by simp)
    · by_cases hlt : xs.length < N
      · obtain ⟨v'', hp, hw', -, -⟩ := wf_push_ok x hw hσ hlt
        rw [hp] at hpush
        simp only [Option.some.injEq, Prod.mk.injEq] at hpush
        exact ⟨xs ++ [x], by rw [← hpush.2]; exact hw'⟩
      · have hfull : xs.length = N := by
          have := wf_length_le hw
          omega
        rw [wf_push_full x hw hσ hfull] at hpush
        simp only [Option.some.injEq, Prod.mk.injEq] at hpush
        exact ⟨xs, by rw [← hpush.2]; exact hw⟩
  · intro v xs r v' hw hpop
    by_cases h0 : v.idx = 0
    · rw [pop_empty v h0] at hpop
      simp only [Option.some.injEq, Prod.mk.injEq] at hpop
      exact ⟨xs, by rw [← hpop.2]; exact hw⟩
    · have hxs : xs ≠ [] := by
        intro hnil
        subst hnil
        exact h0 (wf_idx hw)
      rcases List.eq_nil_or_concat xs with hnil | ⟨ys, y, rfl⟩
      · exact absurd hnil hxs
      · rw [List.concat_eq_append] at hw
        obtain ⟨v'', hp, hw', -⟩ := wf_pop_last hw
        rw [hp] at hpop
        simp only [Option.some.injEq, Prod.mk.injEq] at hpop
        exact ⟨ys, by rw [← hpop.2]; exact hw'⟩
  · intro v xs hw
    have h1 := wf_length_le hw
    have h2 := wf_idx hw
    simp only [length]
    omega

/-- Witness for C5: concrete instances of each conjunct at capacity 2. -/
theorem claim_C5_witness :
    ((ArrayVec.new : ArrayVec Nat 2).Wf [] ∧ (ArrayVec.new : ArrayVec Nat 2).length = 0) ∧
    (∃ ys, (ArrayVec.mk (some [Slot.live 5, Slot.uninit]) 1 : ArrayVec Nat 2).Wf ys) ∧
    (∃ ys, (ArrayVec.mk (some [Slot.uninit, Slot.uninit]) 0 : ArrayVec Nat 2).Wf ys) ∧
    (ArrayVec.new : ArrayVec Nat 2).length ≤ 2 :=
  ⟨(claim_C5_invariant (T := Nat) (N := 2) 1).1,
   (claim_C5_invariant (T := Nat) (N := 2) 1).2.1 ArrayVec.new [] 5 (Except.ok ())
     (ArrayVec.mk (some [Slot.live 5, Slot.uninit]) 1)
     (show (ArrayVec.new : ArrayVec Nat 2).Wf [] from ⟨2, rfl, rfl, rfl⟩) rfl,
   (claim_C5_invariant (T := Nat) (N := 2) 1).2.2.1
     (ArrayVec.mk (some [Slot.live 5, Slot.uninit]) 1) [5] (some (Slot.live 5))
     (ArrayVec.mk (some [Slot.uninit, Slot.uninit]) 0)
     (show (ArrayVec.mk (some [Slot.live 5, Slot.uninit]) 1 : ArrayVec Nat 2).Wf [5] from
       ⟨1, rfl, rfl, rfl⟩) rfl,
   (claim_C5_invariant (T := Nat) (N := 2) 1).2.2.2 ArrayVec.new []
     (show (ArrayVec.new : ArrayVec Nat 2).Wf [] from ⟨2, rfl, rfl, rfl⟩)⟩

/-- C6 counterexample: for a zero-sized element type (element size 0),
`capacity` does not return `N` — the division by `size_of::<T>() = 0` panics
(`none` in the model), refuting "never fails or panics for any element type,
including zero-sized `T`". -/
theorem claim_C6_counterexample :
    (ArrayVec.new : ArrayVec Unit 1).capacity 0 = none := rfl

/-- C6 (amended): for every element type of nonzero size, `capacity` returns
exactly `N`, computed as the storage block's size (`N * sizeT`) divided by one
element's size, and never fails; for a zero-sized element type the division by
zero faults instead. -/
theorem claim_C6_capacity (v : ArrayVec T N) (sizeT : Nat) :
    (sizeT ≠ 0 → v.capacity sizeT = some (sizeOfStorage N sizeT / sizeT) ∧
      v.capacity sizeT = some N) ∧
    (sizeT = 0 → v.capacity sizeT = none) := by
  constructor
  · intro hs
    exact ⟨by simp [capacity, hs], capacity_spec v sizeT hs⟩
  · intro hs
    subst hs
    exact capacity_zst v

/-- Witness for C6 at element size 1, capacity 3. -/
theorem claim_C6_witness :
    (ArrayVec.new : ArrayVec Nat 3).capacity 1 = some (sizeOfStorage 3 1 / 1) ∧
    (ArrayVec.new : ArrayVec Nat 3).capacity 1 = some 3 :=
  (claim_C6_capacity (ArrayVec.new : ArrayVec Nat 3) 1).1 (by decide)

/-- C7: the live view — `Deref` (read-only) and `DerefMut` (read-write) — of
a well-formed container contains exactly `length()` elements, in insertion
order with the least-recently-pushed element first, and exposes no slot with
index `≥ length()` (every exposed cell is a live element of the prefix). -/
theorem claim_C7_views {v : ArrayVec T N} {xs : List T} (hw : v.Wf xs) :
    v.deref = some (xs.map Slot.live) ∧ v.deref_mut = some (xs.map Slot.live) ∧
    (xs.map Slot.live).length = v.length := by
  refine ⟨wf_deref hw, wf_deref_mut hw, ?_⟩
  simp [length, wf_idx hw]

/-- Witness for C7: the views of a capacity-3 container holding `[1, 2]`. -/
theorem claim_C7_witness :
    (ArrayVec.mk (some [Slot.live 1, Slot.live 2, Slot.uninit]) 2 : ArrayVec Nat 3).deref
      = some [Slot.live 1, Slot.live 2] ∧
    (ArrayVec.mk (some [Slot.live 1, Slot.live 2, Slot.uninit]) 2 :
      ArrayVec Nat 3).deref_mut = some [Slot.live 1, Slot.live 2] ∧
    ([Slot.live 1, Slot.live 2] : List (Slot Nat)).length
      = (ArrayVec.mk (some [Slot.live 1, Slot.live 2, Slot.uninit]) 2 :
          ArrayVec Nat 3).length :=
  claim_C7_views (show (ArrayVec.mk (some [Slot.live 1, Slot.live 2, Slot.uninit]) 2 :
    ArrayVec Nat 3).Wf [1, 2] from ⟨1, rfl, rfl, rfl⟩)

/-- C8: indexed access on a well-formed container returns the live element at
position `i` whenever `i < length()` (the result is drawn from the live
prefix, never from an uninitialized slot), and is a fatal out-of-bounds panic
(`none`) whenever `i ≥ length()`. -/
theorem claim_C8_index {v : ArrayVec T N} {xs : List T} (hw : v.Wf xs) (i : Nat) :
    v.index i = (xs.get? i).map Slot.live ∧ (v.length ≤ i → v.index i = none) := by
  refine ⟨wf_index hw i, fun hge => ?_⟩
  rw [wf_index hw i]
  have hnone : xs.get? i = none := by
    rw [List.get?_eq_none]
    have h1 := wf_idx hw
    simp only [length] at hge
    omega
  rw [hnone]
  rfl

/-- Witness for C8: in-bounds index 0 and out-of-bounds index 5 on a
capacity-3 container holding `[1, 2]`. -/
theorem claim_C8_witness :
    ((ArrayVec.mk (some [Slot.live 1, Slot.live 2, Slot.uninit]) 2 :
        ArrayVec Nat 3).index 0 = some (Slot.live 1)) ∧
    ((ArrayVec.mk (some [Slot.live 1, Slot.live 2, Slot.uninit]) 2 :
        ArrayVec Nat 3).index 5 = none) :=
  ⟨(claim_C8_index (show (ArrayVec.mk (some [Slot.live 1, Slot.live 2, Slot.uninit]) 2 :
      ArrayVec Nat 3).Wf [1, 2] from ⟨1, rfl, rfl, rfl⟩) 0).1,
   (claim_C8_index (show (ArrayVec.mk (some [Slot.live 1, Slot.live 2, Slot.uninit]) 2 :
      ArrayVec Nat 3).Wf [1, 2] from ⟨1, rfl, rfl, rfl⟩) 5).2 (by decide)⟩

/-- C9: building a container from a finite source sequence pushes each element
in source order; when the source fits within capacity the result has exactly
the source as its live list (length = element count, source order); when the
source exceeds capacity the adapter panics (`unwrap` of the push `Err` —
`none` in the model) instead of returning an Overflow result to the caller. -/
theorem claim_C9_from_iter (sizeT : Nat) (hs : sizeT ≠ 0) (l : List T) :
    (l.length ≤ N →
      ∃ v : ArrayVec T N, from_iter sizeT l = some v ∧ v.Wf l) ∧
    (N < l.length → (from_iter sizeT l : Option (ArrayVec T N)) = none) := by
  have h := wf_fromIterLoop hs l (ArrayVec.new : ArrayVec T N) [] wf_new
  constructor
  · intro hle
    obtain ⟨v, h1, h2⟩ := h.1 (by simpa using hle)
    exact ⟨v, h1, by simpa using h2⟩
  · intro hgt
    exact h.2 (by simpa using hgt)

/-- Witness for C9: `[4, 5]` fits a capacity-3 container; `[1, 2, 3, 4]`
overflows a capacity-2 container and panics. -/
theorem claim_C9_witness :
    (∃ v : ArrayVec Nat 3, ArrayVec.from_iter 1 [4, 5] = some v ∧ v.Wf [4, 5]) ∧
    (ArrayVec.from_iter 1 [1, 2, 3, 4] : Option (ArrayVec Nat 2)) = none :=
  ⟨(claim_C9_from_iter 1 (by decide) [4, 5]).1 (by decide),
   (claim_C9_from_iter 1 (by decide) [1, 2, 3, 4]).2 (by decide)⟩

/-- C10: every state reachable through the public operations (create, push,
pop; indexing, views and formatting borrow without mutating except for writes
through the `DerefMut` slice, covered by `Reachable.write`) holds `Some`
storage in its `array` field, so the `unreachable!()` branches inside
`base_ptr`/`base_ptr_mut` (the `none` results) are never executed by any
public operation. -/
theorem claim_C10_reachable_some {sizeT : Nat} {v : ArrayVec T N}
    (h : Reachable T N sizeT v) :
    v.array.isSome ∧ v.base_ptr.isSome ∧ v.base_ptr_mut.isSome := by
  have harr : v.array.isSome := by
    induction h with
    | new => rfl
    | push v x r v' hr hp ih => exact push_isSome ih hp
    | pop v r v' hr hp ih => exact pop_isSome ih hp
    | write v slots i y hr ha hi ih => rfl
  obtain ⟨s, hs⟩ := Option.isSome_iff_exists.mp harr
  refine ⟨harr, ?_, ?_⟩ <;> simp [base_ptr, base_ptr_mut, hs]

/-- Witness for C10 at the freshly created state. -/
theorem claim_C10_witness :
    (ArrayVec.new : ArrayVec Nat 2).array.isSome ∧
    (ArrayVec.new : ArrayVec Nat 2).base_ptr.isSome ∧
    (ArrayVec.new : ArrayVec Nat 2).base_ptr_mut.isSome :=
  claim_C10_reachable_some (@Reachable.new Nat 2 1)

end ArrayVec
